import Mathlib

/-!
# Verification of the Chudnovsky binary-splitting pi calculator

A shallow embedding of `pi.c`, a multithreaded Chudnovsky-series pi
calculator built on GMP integers.  Machine `mpz_t` values are modelled by
`ℤ`; the C `int` arguments that stay in range are modelled by `ℕ`/`ℤ` with
C's truncating division rendered as `Int.tdiv`.  The recursive procedure
`binary_split` is embedded twice: once fuel-indexed (`binarySplitF`), which
observes termination exactly as the C call stack does (a `none` result for
every fuel bound means the C recursion never returns), and once as the
total function `binary_split` on the ranges the program actually uses.
-/

/-- The `pqt_t` struct of `pi.c`: the three Chudnovsky binary-splitting
components, arbitrary-precision integers. -/
structure PQT where
  P : ℤ
  Q : ℤ
  T : ℤ
deriving DecidableEq

/-- The combination step of `binary_split` (pi.c lines 108-118):
`P = left.P * right.P`, `Q = left.Q * right.Q`,
`T = right.Q * left.T + left.P * right.T`. -/
def combinePQT (l r : PQT) : PQT :=
  { P := l.P * r.P, Q := l.Q * r.Q, T := r.Q * l.T + l.P * r.T }

/-- The base case of `binary_split` (pi.c lines 57-91): the term at a
single index `a`.  For `a = 0`, `P = Q = 1`; otherwise
`P = -(6a-5)(2a-1)(6a-1)` and `Q = 640320^3 * a^3 / 24` (an exact GMP
division, `mpz_divexact_ui`).  In both cases
`T = P * (545140134 * a + 13591409)`. -/
def leafPQT (a : ℤ) : PQT :=
  let P : ℤ := if a = 0 then 1 else -((6 * a - 5) * (2 * a - 1) * (6 * a - 1))
  let Q : ℤ := if a = 0 then 1 else a ^ 3 * 640320 * 640320 * 640320 / 24
  { P := P, Q := Q, T := P * (545140134 * a + 13591409) }

/-- Fuel-indexed embedding of `binary_split(a, b, res)` (pi.c lines 56-125).
The fuel bounds the depth of the C call stack; `m = (a + b) / 2` uses C's
truncating `int` division (`Int.tdiv`).  `binarySplitF fuel a b = none` for
every `fuel` exactly when the C recursion never returns on `(a, b)`. -/
def binarySplitF : ℕ → ℤ → ℤ → Option PQT
  | 0, _, _ => none
  | fuel + 1, a, b =>
    if b - a = 1 then
      some (leafPQT a)
    else
      match binarySplitF fuel a (Int.tdiv (a + b) 2),
            binarySplitF fuel (Int.tdiv (a + b) 2) b with
      | some l, some r => some (combinePQT l r)
      | _, _ => none

/-- `binary_split` on the ranges the program constructs (`0 ≤ a < b`):
runs the fuel-indexed embedding with fuel `b - a`, which is shown below
(`binarySplitF_eq_closed`) to always suffice. -/
def binary_split (a b : ℕ) : PQT :=
  (binarySplitF (b - a) (a : ℤ) (b : ℤ)).getD ⟨1, 1, 0⟩

/-- `iterations = decimals / 14 + 10` (pi.c line 174), with C's truncating
`int` division applied to the raw, unvalidated `-d` option value. -/
def iterations (decimals : ℤ) : ℤ :=
  Int.tdiv decimals 14 + 10

/-- The GMP default float precision set at pi.c line 171:
`(decimals + 100) * 4` bits. -/
def precisionBits (decimals : ℤ) : ℤ :=
  (decimals + 100) * 4

/-- The `-t` option handling (pi.c lines 148-149): the thread count is
clamped to at least 1. -/
def clampThreads (t : ℤ) : ℤ :=
  if t < 1 then 1 else t

/-- `chunk = iterations / num_threads` (pi.c line 206). -/
def chunk (N W : ℕ) : ℕ :=
  N / W

/-- `data[i].a = i * chunk` (pi.c line 214). -/
def subLo (N W i : ℕ) : ℕ :=
  i * chunk N W

/-- `data[i].b = (i == num_threads - 1) ? iterations : (i + 1) * chunk`
(pi.c line 215). -/
def subHi (N W i : ℕ) : ℕ :=
  if i = W - 1 then N else (i + 1) * chunk N W

/-- The triple computed by worker thread `i` (pi.c lines 128-132). -/
def subTriple (N W i : ℕ) : PQT :=
  binary_split (subLo N W i) (subHi N W i)

/-- The multi-thread aggregation of pi.c lines 222-248: `final` is
initialised from thread 0's triple and the remaining triples are folded in
left-to-right with the binary-splitting combination rule
(`temp = Q_i * final.T; final.T = final.P * T_i + temp;
final.P *= P_i; final.Q *= Q_i`). -/
def multiAggregate (N W : ℕ) : PQT :=
  (List.range (W - 1)).foldl
    (fun acc j => combinePQT acc (subTriple N W (j + 1)))
    (subTriple N W 0)

/-! ## Closed forms

Reference formulas for the per-term factors and the range products/sums,
used to relate the recursion to arbitrary split points.  The per-term
factors are read off from `leafPQT`, so they are the code's values by
definition. -/

/-- The single-term `P` factor, as computed by the code's leaf case. -/
def pTerm (k : ℕ) : ℤ :=
  (leafPQT (k : ℤ)).P

/-- The single-term `Q` factor, as computed by the code's leaf case. -/
def qTerm (k : ℕ) : ℤ :=
  (leafPQT (k : ℤ)).Q

/-- The linear Chudnovsky numerator factor `545140134 k + 13591409`. -/
def cTerm (k : ℕ) : ℤ :=
  545140134 * (k : ℤ) + 13591409

/-- Closed form of the `P` component over `[a, b)`. -/
def Pc (a b : ℕ) : ℤ :=
  ∏ k ∈ Finset.Ico a b, pTerm k

/-- Closed form of the `Q` component over `[a, b)`. -/
def Qc (a b : ℕ) : ℤ :=
  ∏ k ∈ Finset.Ico a b, qTerm k

/-- Closed form of the `T` component over `[a, b)`. -/
def Tc (a b : ℕ) : ℤ :=
  ∑ k ∈ Finset.Ico a b, Pc a (k + 1) * cTerm k * Qc (k + 1) b

lemma Pc_mul (a m b : ℕ) (h1 : a ≤ m) (h2 : m ≤ b) :
    Pc a m * Pc m b = Pc a b := by
  unfold Pc
  exact Finset.prod_Ico_consecutive pTerm h1 h2

lemma Qc_mul (a m b : ℕ) (h1 : a ≤ m) (h2 : m ≤ b) :
    Qc a m * Qc m b = Qc a b := by
  unfold Qc
  exact Finset.prod_Ico_consecutive qTerm h1 h2

lemma Pc_singleton (a : ℕ) : Pc a (a + 1) = pTerm a := by
  rw [Pc, Nat.Ico_succ_singleton, Finset.prod_singleton]

lemma Qc_singleton (a : ℕ) : Qc a (a + 1) = qTerm a := by
  rw [Qc, Nat.Ico_succ_singleton, Finset.prod_singleton]

lemma Qc_empty (a : ℕ) : Qc a a = 1 := by
  rw [Qc, Finset.Ico_self, Finset.prod_empty]

lemma Tc_singleton (a : ℕ) : Tc a (a + 1) = pTerm a * cTerm a := by
  rw [Tc, Nat.Ico_succ_singleton, Finset.sum_singleton, Pc_singleton, Qc_empty,
    mul_one]

/-- The binary-splitting combination identity for the closed-form `T`,
valid for an arbitrary split point `m`. -/
lemma Tc_split (a m b : ℕ) (h1 : a ≤ m) (h2 : m ≤ b) :
    Tc a b = Qc m b * Tc a m + Pc a m * Tc m b := by
  unfold Tc
  rw [← Finset.sum_Ico_consecutive
    (fun k => Pc a (k + 1) * cTerm k * Qc (k + 1) b) h1 h2]
  rw [Finset.mul_sum, Finset.mul_sum]
  congr 1
  · refine Finset.sum_congr rfl fun k hk => ?_
    have hk2 : k + 1 ≤ m := (Finset.mem_Ico.mp hk).2
    rw [← Qc_mul (k + 1) m b hk2 h2]
    ring
  · refine Finset.sum_congr rfl fun k hk => ?_
    have hk1 : m ≤ k + 1 := le_trans (Finset.mem_Ico.mp hk).1 (Nat.le_succ k)
    rw [← Pc_mul a m (k + 1) h1 hk1]
    ring

/-- Combining the closed forms of `[a, m)` and `[m, b)` with the code's
combination step yields the closed form of `[a, b)`. -/
lemma combine_closed (a m b : ℕ) (h1 : a ≤ m) (h2 : m ≤ b) :
    combinePQT ⟨Pc a m, Qc a m, Tc a m⟩ ⟨Pc m b, Qc m b, Tc m b⟩ =
      ⟨Pc a b, Qc a b, Tc a b⟩ := by
  unfold combinePQT
  simp only [PQT.mk.injEq]
  exact ⟨Pc_mul a m b h1 h2, Qc_mul a m b h1 h2, (Tc_split a m b h1 h2).symm⟩

/-- The closed form of a width-1 range is exactly the code's leaf triple. -/
lemma closed_leaf (a : ℕ) :
    (⟨Pc a (a + 1), Qc a (a + 1), Tc a (a + 1)⟩ : PQT) = leafPQT (a : ℤ) := by
  rw [Pc_singleton, Qc_singleton, Tc_singleton]
  rfl

/-! ## The recursion on non-empty ranges -/

lemma tdiv_cast (p : ℕ) : Int.tdiv (p : ℤ) 2 = ((p / 2 : ℕ) : ℤ) := rfl

/-- On a non-empty range `[a, b)` the recursion returns the closed form,
for any fuel of at least the range width (each call strictly shrinks the
width, so the depth never exceeds it). -/
lemma binarySplitF_eq_closed :
    ∀ (n a b : ℕ), a < b → b - a ≤ n →
      binarySplitF n (a : ℤ) (b : ℤ) = some ⟨Pc a b, Qc a b, Tc a b⟩ := by
  intro n
  induction n with
  | zero => intro a b h1 h2; omega
  | succ n ih =>
    intro a b h1 h2
    by_cases hb : b = a + 1
    · subst hb
      have hcond : ((a + 1 : ℕ) : ℤ) - (a : ℤ) = 1 := by push_cast; ring
      simp only [binarySplitF]
      rw [if_pos hcond, closed_leaf]
    · have hw : a + 2 ≤ b := by omega
      have hcond : ¬ ((b : ℤ) - (a : ℤ) = 1) := by omega
      simp only [binarySplitF]
      rw [if_neg hcond]
      have hmcast : Int.tdiv ((a : ℤ) + (b : ℤ)) 2 = (((a + b) / 2 : ℕ) : ℤ) := by
        rw [← Nat.cast_add, tdiv_cast]
      rw [hmcast]
      have h3 : a < (a + b) / 2 := by omega
      have h4 : (a + b) / 2 < b := by omega
      rw [ih a ((a + b) / 2) h3 (by omega), ih ((a + b) / 2) b h4 (by omega)]
      exact congrArg some (combine_closed a ((a + b) / 2) b h3.le h4.le)

/-- On an empty or reversed range the recursion never reaches the width-1
base case: it returns nothing for every fuel bound, i.e. the C function
never returns. -/
lemma binarySplitF_empty :
    ∀ (n : ℕ) (a b : ℤ), b ≤ a → binarySplitF n a b = none := by
  intro n
  induction n with
  | zero => intro a b _; rfl
  | succ n ih =>
    intro a b h
    have hcond : ¬ (b - a = 1) := by omega
    simp only [binarySplitF]
    rw [if_neg hcond]
    have hcases : Int.tdiv (a + b) 2 ≤ a ∨ b ≤ Int.tdiv (a + b) 2 := by
      rcases le_or_lt 0 (a + b) with hpos | hneg
      · left
        obtain ⟨p, hp⟩ := Int.eq_ofNat_of_zero_le hpos
        have e : Int.tdiv (a + b) 2 = ((p / 2 : ℕ) : ℤ) := by rw [hp]; rfl
        omega
      · right
        obtain ⟨p, hp⟩ : ∃ p : ℕ, a + b = Int.negSucc p :=
          ⟨(-(a + b) - 1).toNat, by rw [Int.negSucc_eq]; omega⟩
        have e : Int.tdiv (a + b) 2 = -(((p + 1) / 2 : ℕ) : ℤ) := by rw [hp]; rfl
        rw [Int.negSucc_eq] at hp
        omega
    rcases hcases with h' | h'
    · rw [ih a (Int.tdiv (a + b) 2) h']
    · rw [ih (Int.tdiv (a + b) 2) b h']
      cases binarySplitF n a (Int.tdiv (a + b) 2) <;> rfl

/-- `binary_split` computes the closed form on every non-empty range. -/
lemma binary_split_eq_closed (a b : ℕ) (h : a < b) :
    binary_split a b = ⟨Pc a b, Qc a b, Tc a b⟩ := by
  rw [binary_split, binarySplitF_eq_closed (b - a) a b h le_rfl, Option.getD_some]

/-- `binary_split` on a width-1 range is the code's leaf triple. -/
lemma binary_split_leaf (a : ℕ) : binary_split a (a + 1) = leafPQT (a : ℤ) := by
  rw [binary_split_eq_closed a (a + 1) (Nat.lt_succ_self a), closed_leaf]

/-! ## Per-term facts: signs and the exact division by 24 -/

lemma pTerm_succ (k : ℕ) :
    pTerm (k + 1) =
      -((6 * ((k : ℤ) + 1) - 5) * (2 * ((k : ℤ) + 1) - 1) * (6 * ((k : ℤ) + 1) - 1)) := by
  have h : ((k + 1 : ℕ) : ℤ) ≠ 0 := by push_cast; omega
  show (if ((k + 1 : ℕ) : ℤ) = 0 then (1 : ℤ)
      else -((6 * ((k + 1 : ℕ) : ℤ) - 5) * (2 * ((k + 1 : ℕ) : ℤ) - 1) *
        (6 * ((k + 1 : ℕ) : ℤ) - 1))) = _
  rw [if_neg h]
  push_cast
  ring

lemma dvd_24_q (x : ℤ) : (24 : ℤ) ∣ x ^ 3 * 640320 * 640320 * 640320 :=
  ⟨x ^ 3 * 26680 * 640320 * 640320, by ring⟩

lemma qTerm_exact (k : ℕ) :
    24 * qTerm (k + 1) = ((k : ℤ) + 1) ^ 3 * 640320 * 640320 * 640320 := by
  have h : ((k + 1 : ℕ) : ℤ) ≠ 0 := by push_cast; omega
  show 24 * (if ((k + 1 : ℕ) : ℤ) = 0 then (1 : ℤ)
      else ((k + 1 : ℕ) : ℤ) ^ 3 * 640320 * 640320 * 640320 / 24) = _
  rw [if_neg h, Int.mul_ediv_cancel' (dvd_24_q _)]
  push_cast
  ring

lemma qTerm_pos (k : ℕ) : 0 < qTerm k := by
  cases k with
  | zero => decide
  | succ k =>
    have h := qTerm_exact k
    have hp : (0 : ℤ) < ((k : ℤ) + 1) ^ 3 * 640320 * 640320 * 640320 := by positivity
    linarith

lemma pTerm_neg (k : ℕ) : pTerm (k + 1) < 0 := by
  rw [pTerm_succ]
  have h1 : (0 : ℤ) < 6 * ((k : ℤ) + 1) - 5 := by omega
  have h2 : (0 : ℤ) < 2 * ((k : ℤ) + 1) - 1 := by omega
  have h3 : (0 : ℤ) < 6 * ((k : ℤ) + 1) - 1 := by omega
  have := mul_pos (mul_pos h1 h2) h3
  linarith

lemma cTerm_pos (k : ℕ) : 0 < cTerm k := by
  unfold cTerm
  positivity

lemma Qc_pos (a b : ℕ) : 0 < Qc a b := by
  unfold Qc
  exact Finset.prod_pos fun i _ => qTerm_pos i

/-- The alternating sign of the closed-form `P` over `[a, b)` with `a > 0`:
positive for even width, negative for odd width. -/
lemma Pc_sign (a b : ℕ) (ha : 0 < a) (hab : a ≤ b) :
    (Even (b - a) → 0 < Pc a b) ∧ (Odd (b - a) → Pc a b < 0) := by
  induction b, hab using Nat.le_induction with
  | base =>
    rw [Pc, Finset.Ico_self, Finset.prod_empty, Nat.sub_self]
    exact ⟨fun _ => one_pos, fun h => absurd h (by decide)⟩
  | succ b hab ih =>
    have hsplit : Pc a (b + 1) = Pc a b * pTerm b := by
      rw [Pc, Pc, Finset.prod_Ico_succ_top hab]
    obtain ⟨j, rfl⟩ : ∃ j, b = j + 1 := ⟨b - 1, by omega⟩
    have hneg := pTerm_neg j
    constructor
    · intro he
      have ho : Odd (j + 1 - a) := by
        rw [Nat.even_iff] at he
        rw [Nat.odd_iff]
        omega
      rw [hsplit]
      exact mul_pos_of_neg_of_neg (ih.2 ho) hneg
    · intro ho
      have he : Even (j + 1 - a) := by
        rw [Nat.odd_iff] at ho
        rw [Nat.even_iff]
        omega
      rw [hsplit]
      exact mul_neg_of_pos_of_neg (ih.1 he) hneg

/-! ## The thread partition of `[0, N)` -/

lemma chunk_pos (N W : ℕ) (hW : 0 < W) (hWN : W ≤ N) : 0 < chunk N W := by
  unfold chunk
  exact (Nat.one_le_div_iff hW).mpr hWN

lemma subLo_zero (N W : ℕ) : subLo N W 0 = 0 := by
  unfold subLo
  exact Nat.zero_mul _

lemma subHi_last (N W : ℕ) : subHi N W (W - 1) = N := by
  unfold subHi
  rw [if_pos rfl]

lemma subHi_adj (N W i : ℕ) (h : i + 1 < W) : subHi N W i = subLo N W (i + 1) := by
  unfold subHi subLo
  rw [if_neg (by omega)]

lemma sub_nonempty (N W i : ℕ) (hW : 0 < W) (hWN : W ≤ N) (hi : i < W) :
    subLo N W i < subHi N W i := by
  have hc := chunk_pos N W hW hWN
  have hmul : N / W * W ≤ N := Nat.div_mul_le_self N W
  unfold subLo subHi
  by_cases hlast : i = W - 1
  · rw [if_pos hlast, hlast]
    obtain ⟨w, rfl⟩ : ∃ w, W = w + 1 := ⟨W - 1, by omega⟩
    have e : (w + 1 - 1) * chunk N (w + 1) = w * chunk N (w + 1) := by
      congr 1
    have e2 : N / (w + 1) * (w + 1) = w * chunk N (w + 1) + chunk N (w + 1) := by
      unfold chunk
      ring
    rw [e]
    unfold chunk at *
    linarith
  · rw [if_neg hlast]
    have e : (i + 1) * chunk N W = i * chunk N W + chunk N W := by ring
    linarith

/-- Folding the worker triples 0, 1, ..., j left-to-right with the code's
combination rule accumulates the closed form of `[0, subHi j)`, provided
every sub-range is non-empty (`W ≤ N`). -/
lemma fold_chunks (N W : ℕ) (hW : 1 ≤ W) (hWN : W ≤ N) :
    ∀ j, j < W →
      (List.range j).foldl (fun acc t => combinePQT acc (subTriple N W (t + 1)))
          (subTriple N W 0)
        = ⟨Pc 0 (subHi N W j), Qc 0 (subHi N W j), Tc 0 (subHi N W j)⟩ := by
  intro j
  induction j with
  | zero =>
    intro hj
    have hne := sub_nonempty N W 0 hW hWN hj
    rw [subLo_zero] at hne
    simp only [List.range_zero, List.foldl_nil]
    unfold subTriple
    rw [subLo_zero]
    exact binary_split_eq_closed 0 (subHi N W 0) hne
  | succ j ih =>
    intro hj
    rw [List.range_succ, List.foldl_append, List.foldl_cons, List.foldl_nil]
    rw [ih (by omega)]
    unfold subTriple
    have hadj : subHi N W j = subLo N W (j + 1) := subHi_adj N W j hj
    have hne : subLo N W (j + 1) < subHi N W (j + 1) :=
      sub_nonempty N W (j + 1) hW hWN hj
    rw [binary_split_eq_closed _ _ hne, hadj]
    exact combine_closed 0 (subLo N W (j + 1)) (subHi N W (j + 1))
      (Nat.zero_le _) hne.le

/-- With at least one term per worker, the multi-thread fold agrees with
the single-thread run. -/
lemma multiAggregate_eq (N W : ℕ) (hW : 1 ≤ W) (hWN : W ≤ N) :
    multiAggregate N W = binary_split 0 N := by
  unfold multiAggregate
  rw [fold_chunks N W hW hWN (W - 1) (by omega), subHi_last]
  exact (binary_split_eq_closed 0 N (by omega)).symm

/-! ## Claims -/

/-- C1: for every range `[a, b)` of non-negative integers with width at
least 2, `binary_split` computes its triple by letting `m = ⌊(a+b)/2⌋`,
recursing on `[a, m)` and `[m, b)`, and combining as
`P = left.P * right.P`, `Q = left.Q * right.Q`,
`T = right.Q * left.T + left.P * right.T`, in exactly that pairing of
operands. -/
theorem binary_split_recursive_case (a b : ℕ) (h : 2 ≤ b - a) :
    binary_split a b =
      { P := (binary_split a ((a + b) / 2)).P * (binary_split ((a + b) / 2) b).P,
        Q := (binary_split a ((a + b) / 2)).Q * (binary_split ((a + b) / 2) b).Q,
        T := (binary_split ((a + b) / 2) b).Q * (binary_split a ((a + b) / 2)).T
          + (binary_split a ((a + b) / 2)).P * (binary_split ((a + b) / 2) b).T } := by
  have h3 : a < (a + b) / 2 := by omega
  have h4 : (a + b) / 2 < b := by omega
  rw [binary_split_eq_closed a b (by omega),
      binary_split_eq_closed a ((a + b) / 2) h3,
      binary_split_eq_closed ((a + b) / 2) b h4]
  exact (combine_closed a ((a + b) / 2) b h3.le h4.le).symm

/-- Witness for C1 at the concrete range `[0, 2)`. -/
theorem binary_split_recursive_case_witness :
    2 ≤ 2 - 0 ∧
      binary_split 0 2 =
        { P := (binary_split 0 ((0 + 2) / 2)).P * (binary_split ((0 + 2) / 2) 2).P,
          Q := (binary_split 0 ((0 + 2) / 2)).Q * (binary_split ((0 + 2) / 2) 2).Q,
          T := (binary_split ((0 + 2) / 2) 2).Q * (binary_split 0 ((0 + 2) / 2)).T
            + (binary_split 0 ((0 + 2) / 2)).P * (binary_split ((0 + 2) / 2) 2).T } :=
  ⟨by decide, binary_split_recursive_case 0 2 (by decide)⟩

/-- C2: the leaf evaluation of a width-1 range at index `k` produces
`P = Q = 1` for `k = 0`; `P = -(6k-5)(2k-1)(6k-1)` and
`Q = 640320^3 * k^3 / 24` exactly (stated as `24 * Q = 640320^3 * k^3`) for
`k ≥ 1`; and in both cases `T = P * (13591409 + 545140134 * k)`. -/
theorem binary_split_leaf_terms (k : ℕ) :
    binary_split 0 1 = ⟨1, 1, 13591409⟩ ∧
    (binary_split (k + 1) (k + 2)).P =
      -((6 * ((k : ℤ) + 1) - 5) * (2 * ((k : ℤ) + 1) - 1) * (6 * ((k : ℤ) + 1) - 1)) ∧
    24 * (binary_split (k + 1) (k + 2)).Q = 640320 ^ 3 * ((k : ℤ) + 1) ^ 3 ∧
    (binary_split k (k + 1)).T =
      (binary_split k (k + 1)).P * (13591409 + 545140134 * (k : ℤ)) := by
  have e1 : binary_split (k + 1) (k + 2) = leafPQT ((k + 1 : ℕ) : ℤ) :=
    binary_split_leaf (k + 1)
  have e0 : binary_split k (k + 1) = leafPQT ((k : ℕ) : ℤ) := binary_split_leaf k
  refine ⟨by decide, ?_, ?_, ?_⟩
  · rw [e1]
    show pTerm (k + 1) = _
    rw [pTerm_succ]
  · rw [e1]
    show 24 * qTerm (k + 1) = _
    rw [qTerm_exact]
    ring
  · rw [e0]
    show (leafPQT ((k : ℕ) : ℤ)).P * (545140134 * (k : ℤ) + 13591409) = _
    ring

/-- C3: for all `0 ≤ a < m < b`, computing `binary_split` over `[a, b)`
directly yields exactly the same `P`, `Q`, `T` as computing it over
`[a, m)` and `[m, b)` and combining the two triples with the combination
rule: the result is independent of the split point. -/
theorem binary_split_split_point_independent (a m b : ℕ)
    (h1 : a < m) (h2 : m < b) :
    combinePQT (binary_split a m) (binary_split m b) = binary_split a b := by
  rw [binary_split_eq_closed a m h1, binary_split_eq_closed m b h2,
      binary_split_eq_closed a b (h1.trans h2)]
  exact combine_closed a m b h1.le h2.le

/-- Witness for C3 at `a = 0`, `m = 1`, `b = 3` (not the midpoint). -/
theorem binary_split_split_point_independent_witness :
    (0 : ℕ) < 1 ∧ (1 : ℕ) < 3 ∧
      combinePQT (binary_split 0 1) (binary_split 1 3) = binary_split 0 3 :=
  ⟨by decide, by decide,
    binary_split_split_point_independent 0 1 3 (by decide) (by decide)⟩

/-- C5: `binary_split` is total on every range with `0 ≤ a < b`: for any
call-stack bound of at least the range width `b - a` (each recursive call
strictly shrinks the width) the recursion reaches the width-1 base cases
and returns a result, with no error states. -/
theorem binary_split_total (a b : ℕ) (h : a < b) :
    ∀ fuel, b - a ≤ fuel →
      binarySplitF fuel (a : ℤ) (b : ℤ) = some (binary_split a b) := by
  intro fuel hf
  rw [binarySplitF_eq_closed fuel a b h hf, binary_split_eq_closed a b h]

/-- Witness for C5 at the concrete range `[0, 2)` with fuel 2. -/
theorem binary_split_total_witness :
    (0 : ℕ) < 2 ∧ 2 - 0 ≤ 2 ∧
      binarySplitF 2 ((0 : ℕ) : ℤ) ((2 : ℕ) : ℤ) = some (binary_split 0 2) :=
  ⟨by decide, by decide, binary_split_total 0 2 (by decide) 2 (by decide)⟩

/-- C7: for every `k ≥ 1` the integer `640320^3 * k^3` is exactly
divisible by 24, so the `mpz_divexact_ui(Q, Q, 24)` step in the leaf `Q`
computation never loses a remainder: `24 * Q` recovers the undivided
product exactly. -/
theorem leaf_divexact_safe (k : ℕ) :
    (24 : ℤ) ∣ ((k : ℤ) + 1) ^ 3 * 640320 * 640320 * 640320 ∧
    24 * (binary_split (k + 1) (k + 2)).Q = 640320 ^ 3 * ((k : ℤ) + 1) ^ 3 := by
  have e1 : binary_split (k + 1) (k + 2) = leafPQT ((k + 1 : ℕ) : ℤ) :=
    binary_split_leaf (k + 1)
  refine ⟨dvd_24_q _, ?_⟩
  rw [e1]
  show 24 * qTerm (k + 1) = _
  rw [qTerm_exact]
  ring

/-- C9: for a requested decimal count `d`, the run derives the term count
as `⌊d/14⌋ + 10` and the working float precision as `(d + 100) * 4` bits,
exactly as claimed (for the non-negative counts the claim quantifies
over, C's truncating division agrees with the floor). -/
theorem precision_budget_derivation (d : ℕ) :
    iterations (d : ℤ) = (d : ℤ) / 14 + 10 ∧
    precisionBits (d : ℤ) = ((d : ℤ) + 100) * 4 := by
  constructor
  · unfold iterations
    have e : Int.tdiv ((d : ℕ) : ℤ) 14 = ((d / 14 : ℕ) : ℤ) := rfl
    rw [e, Int.natCast_div]
    norm_num
  · rfl

/-- C10: the `-d` value is used unvalidated; whenever the derived term
count `⌊d/14⌋ + 10` (C truncating division) is non-positive — e.g.
`d = -140` — the engine is invoked on the empty range `[0, N)` with
`N ≤ 0`, which violates `a < b`, and the recursion never reaches its
width-1 base case: it returns nothing under every call-stack bound. -/
theorem unvalidated_decimals_diverge (d : ℤ) (h : iterations d ≤ 0) :
    ∀ fuel, binarySplitF fuel 0 (iterations d) = none := fun fuel =>
  binarySplitF_empty fuel 0 (iterations d) h

/-- Witness for C10 at the concrete input `d = -140` (so `N = 0`). -/
theorem unvalidated_decimals_diverge_witness :
    iterations (-140) ≤ 0 ∧ binarySplitF 3 0 (iterations (-140)) = none :=
  ⟨by decide, unvalidated_decimals_diverge (-140) (by decide) 3⟩

/-- C4 counterexample: the claim quantifies over every digit count and
every pair of thread counts `W1 ≠ W2 ≥ 1`, but with `d = 0` the term
count is `N = 10`, and while the single-thread run (`W1 = 1`) terminates,
under `W2 = 11` worker 1 is handed the empty sub-range
`[1 * (10/11), 2 * (10/11)) = [0, 0)`, on which `binary_split` never
returns under any call-stack bound — so no pi string is produced at all,
and the two runs cannot produce identical output. -/
theorem thread_count_changes_result_cx :
    iterations 0 = 10 ∧
    (binarySplitF 10 ((0 : ℕ) : ℤ) ((10 : ℕ) : ℤ)).isSome = true ∧
    subLo 10 11 1 = subHi 10 11 1 ∧
    (∀ fuel,
      binarySplitF fuel ((subLo 10 11 1 : ℕ) : ℤ) ((subHi 10 11 1 : ℕ) : ℤ) =
        none) := by
  refine ⟨by decide, by decide, by decide, fun fuel => ?_⟩
  exact binarySplitF_empty fuel _ _ (by decide)

/-- C4 amended: for every term count `N` and thread counts `W1, W2` that
are at least 1 and at most `N` (so that every worker's sub-range is
non-empty), partitioning `[0, N)` into contiguous sub-ranges, running
`binary_split` on each, and folding the triples left-to-right with the
combination rule yields the same aggregate `(P, Q, T)` for both thread
counts, equal to the single-thread `binary_split 0 N`. -/
theorem multiThread_fold_eq_single (N W1 W2 : ℕ)
    (h1 : 1 ≤ W1) (h1N : W1 ≤ N) (h2 : 1 ≤ W2) (h2N : W2 ≤ N) :
    multiAggregate N W1 = multiAggregate N W2 ∧
    multiAggregate N W1 = binary_split 0 N := by
  constructor
  · rw [multiAggregate_eq N W1 h1 h1N, multiAggregate_eq N W2 h2 h2N]
  · exact multiAggregate_eq N W1 h1 h1N

/-- Witness for the amended C4 at `N = 10`, `W1 = 1`, `W2 = 2`. -/
theorem multiThread_fold_eq_single_witness :
    (1 : ℕ) ≤ 1 ∧ (1 : ℕ) ≤ 10 ∧ (1 : ℕ) ≤ 2 ∧ (2 : ℕ) ≤ 10 ∧
      (multiAggregate 10 1 = multiAggregate 10 2 ∧
        multiAggregate 10 1 = binary_split 0 10) :=
  ⟨by decide, by decide, by decide, by decide,
    multiThread_fold_eq_single 10 1 2 (by decide) (by decide) (by decide)
      (by decide)⟩

/-- C6: the claim states that for every `N ≥ 1`, `W ≥ 1` the sub-ranges
handed to workers are all non-empty; the code violates this whenever
`W > N`.  Reachable failing input: `-d 0 -t 11` gives `N = iterations 0 =
10 < 11 = W`, `chunk = 10 / 11 = 0`, and worker 0 receives the empty
range `[0, 0)`, violating `a < b`; `binary_split` never returns on it
(the C process recurses forever), contradicting the claim's "callers
never construct a range violating a < b".  (The partition itself — 
contiguity and exact coverage of `[0, N)` — does hold; only the
non-emptiness part fails.) -/
theorem subrange_empty_at_bug_input :
    iterations 0 = 10 ∧ chunk 10 11 = 0 ∧
    subLo 10 11 0 = 0 ∧ subHi 10 11 0 = 0 ∧
    ¬ (subLo 10 11 0 < subHi 10 11 0) ∧
    (∀ fuel,
      binarySplitF fuel ((subLo 10 11 0 : ℕ) : ℤ) ((subHi 10 11 0 : ℕ) : ℤ) =
        none) := by
  refine ⟨by decide, by decide, by decide, by decide, by decide, fun fuel => ?_⟩
  exact binarySplitF_empty fuel _ _ (by decide)

/-- C8 counterexample: the claim asserts `P > 0` and `sign T = sign P`
for every range with `0 < a < b`, but the code gives `P = -5 < 0` on
`[1, 2)`, and on `[1, 3)` it gives `P = 1155 > 0` while `T < 0`, so both
asserted facts fail. -/
theorem pqt_sign_claim_cx :
    (binary_split 1 2).P < 0 ∧
    0 < (binary_split 1 3).P ∧ (binary_split 1 3).T < 0 := by decide

/-- C8 amended: for every range `[a, b)` with `0 < a < b`, the triple
produced by `binary_split` has `Q > 0`, and `P` is non-zero and carries
the alternating sign `(-1)^(b-a)` (positive exactly for even width); the
sign is built in at the leaves, where `T` has the same (negative) sign as
its `P`. -/
theorem pqt_signs (a b : ℕ) (ha : 0 < a) (hab : a < b) :
    0 < (binary_split a b).Q ∧
    (binary_split a b).P ≠ 0 ∧
    (0 < (binary_split a b).P ↔ Even (b - a)) ∧
    (b = a + 1 → (binary_split a b).T < 0 ∧ (binary_split a b).P < 0) := by
  rw [binary_split_eq_closed a b hab]
  have hsign := Pc_sign a b ha hab.le
  refine ⟨Qc_pos a b, ?_, ?_, ?_⟩
  · rcases Nat.even_or_odd (b - a) with he | ho
    · exact ne_of_gt (hsign.1 he)
    · exact ne_of_lt (hsign.2 ho)
  · constructor
    · intro hpos
      rcases Nat.even_or_odd (b - a) with he | ho
      · exact he
      · exact absurd hpos (lt_asymm (hsign.2 ho))
    · exact hsign.1
  · intro hb
    subst hb
    have hodd : Odd (a + 1 - a) := by
      rw [Nat.odd_iff]
      omega
    have hPneg := hsign.2 hodd
    refine ⟨?_, hPneg⟩
    show Tc a (a + 1) < 0
    rw [Tc_singleton]
    have hp : pTerm a < 0 := by
      have := Pc_singleton a
      omega
    exact mul_neg_of_neg_of_pos hp (cTerm_pos a)

/-- Witness for the amended C8 at the concrete range `[1, 3)`. -/
theorem pqt_signs_witness :
    (0 : ℕ) < 1 ∧ (1 : ℕ) < 3 ∧
      (0 < (binary_split 1 3).Q ∧
        (binary_split 1 3).P ≠ 0 ∧
        (0 < (binary_split 1 3).P ↔ Even (3 - 1)) ∧
        (3 = 1 + 1 → (binary_split 1 3).T < 0 ∧ (binary_split 1 3).P < 0)) :=
  ⟨by decide, by decide, pqt_signs 1 3 (by decide) (by decide)⟩
